import Mathlib

/-!
Shallow embedding of `cargo-ensure-no-cyclic-deps` (src/main.rs).

The tool loads cargo metadata, builds a directed graph over workspace
packages, runs a strongly-connected-components analysis, and reports
cycles.  Package identifiers (`PackageId`) are modelled as `String`.
The petgraph library's `tarjan_scc` is an external dependency; it is
modelled by its contract: it returns the strongly connected components
(mutual-reachability classes) of the graph, each with full membership.
-/

/-- A declared dependency of a package (`cargo_metadata::Dependency`);
only the `name` field is used by the program. -/
structure Dependency where
  name : String
deriving DecidableEq, Repr

/-- A package record (`cargo_metadata::Package`); the fields the program
uses: identifier, display name, declared dependencies. -/
structure Package where
  id : String
  name : String
  dependencies : List Dependency
deriving DecidableEq, Repr

/-- Cargo metadata: the full package universe plus the identifiers of the
workspace members (`cargo_metadata::Metadata`). -/
structure Metadata where
  packages : List Package
  workspace_members : List String
deriving DecidableEq, Repr

/-- `Metadata::workspace_packages`: the packages of the universe whose id
is a workspace member, in the order of the `packages` list. -/
def workspace_packages (m : Metadata) : List Package :=
  m.packages.filter (fun p => m.workspace_members.contains p.id)

/-- The nodes of the dependency graph, in insertion order: one node per
workspace package, carrying the package id (`graph.add_node(package.id)`). -/
def graphNodes (m : Metadata) : List String :=
  (workspace_packages m).map Package.id

/-- Lookup in the id-to-node-index hash map built by successive inserts:
returns the index of the LAST occurrence of the key (a later
`HashMap::insert` overwrites an earlier one). -/
def lookupIdx : List String → String → Option Nat
  | [], _ => none
  | x :: xs, k =>
    match lookupIdx xs k with
    | some j => some (j + 1)
    | none => if x = k then some 0 else none

/-- `node_map.get(&id)`: node index of a package id, if it is a workspace
member node. -/
def nodeMapGet (m : Metadata) (k : String) : Option Nat :=
  lookupIdx (graphNodes m) k

/-- First package of the universe whose display name matches a dependency
name (`metadata.packages.iter().find(|p| p.name == dep.name)`). -/
def resolveDep (m : Metadata) (depName : String) : Option Package :=
  m.packages.find? (fun p => p.name = depName)

/-- The edges of the dependency graph, as ordered pairs of node indices:
for each workspace package and each declared dependency, resolve the
dependency name to the first matching package of the universe and add an
edge when that package's id is a workspace member node. -/
def graphEdges (m : Metadata) : List (Nat × Nat) :=
  (workspace_packages m).flatMap (fun p =>
    match nodeMapGet m p.id with
    | none => []
    | some fromIdx =>
      p.dependencies.filterMap (fun d =>
        match resolveDep m d.name with
        | none => none
        | some q => (nodeMapGet m q.id).map (fun toIdx => (fromIdx, toIdx))))

/-- One saturation step of forward reachability: keep `s` and add the
targets of all edges whose source is already in `s`. -/
def stepSet {α : Type} [DecidableEq α] (edges : List (α × α)) (s : Finset α) : Finset α :=
  s ∪ (edges.filterMap (fun e => if e.1 ∈ s then some e.2 else none)).toFinset

/-- Nodes reachable from `a` along at most `fuel` edges. -/
def reachSet {α : Type} [DecidableEq α] (edges : List (α × α)) (fuel : Nat) (a : α) : Finset α :=
  (stepSet edges)^[fuel] {a}

/-- The strongly connected component of node `i` in a graph with nodes
`0, …, n-1`: all nodes mutually reachable with `i` (fuel `n` saturates
reachability on `n` nodes). -/
def sccOf (n : Nat) (edges : List (Nat × Nat)) (i : Nat) : List Nat :=
  (List.range n).filter (fun j =>
    decide (j ∈ reachSet edges n i) && decide (i ∈ reachSet edges n j))

/-- Modelled from the spec: the source calls `petgraph::algo::tarjan_scc`,
an external library routine not part of this repository.  Its contract
(spec §9: "reports full membership of each component") is modelled by
listing each strongly connected component once, represented by its
smallest member. -/
def tarjan_scc (n : Nat) (edges : List (Nat × Nat)) : List (List Nat) :=
  ((List.range n).filter (fun i => decide ((sccOf n edges i).head? = some i))).map
    (sccOf n edges)

/-- `graph[idx]`: the package id carried by a node index. -/
def nodeF (m : Metadata) (i : Nat) : String :=
  (graphNodes m).getD i ""

/-- The cycles extracted from the SCC analysis: every component with more
than one member, its node indices replaced by package ids. -/
def sccCycles (m : Metadata) : List (List String) :=
  ((tarjan_scc (graphNodes m).length (graphEdges m)).filter
      (fun scc => 1 < scc.length)).map
    (fun scc => scc.map (nodeF m))

/-- The additional length-1 cycles: one per workspace package whose node
has an edge to itself (`graph.contains_edge(node_idx, node_idx)`). -/
def selfLoopCycles (m : Metadata) : List (List String) :=
  (workspace_packages m).filterMap (fun p =>
    match nodeMapGet m p.id with
    | none => none
    | some i => if (i, i) ∈ graphEdges m then some [p.id] else none)

/-- `detect_cycles`: multi-member SCC cycles followed by self-loop cycles. -/
def detect_cycles (m : Metadata) : List (List String) :=
  sccCycles m ++ selfLoopCycles m

/-- Display name of a package id in `format_cycle`: the name of the first
package of the universe with that id, falling back to the raw id string
(`map_or_else(|| id.to_string(), |p| p.name.clone())`). -/
def resolveName (m : Metadata) (id : String) : String :=
  match m.packages.find? (fun p => p.id = id) with
  | none => id
  | some p => p.name

/-- `format_cycle`: resolve each id of the cycle to a display name, then
join the names, with the first name repeated at the end, by `" -> "`.
Indexing `names[0]` panics on an empty cycle; this is modelled by `none`. -/
def format_cycle (cycle : List String) (m : Metadata) : Option String :=
  let names := cycle.map (resolveName m)
  match names with
  | [] => none
  | n0 :: _ => some (String.intercalate " -> " (names ++ [n0]))

/-- Observable outcome of a run of `main` after metadata retrieval:
process exit code, lines printed to stdout, lines printed to stderr. -/
structure RunResult where
  exitCode : Nat
  stdoutLines : List String
  stderrLines : List String
deriving DecidableEq, Repr

/-- The tail of `main` after `detect_cycles`: empty cycle list prints a
confirmation and exits 0; otherwise each cycle is rendered to stderr and
the process exits 1.  `none` models a rendering panic (never happens for
cycles produced by `detect_cycles`). -/
def run_main (m : Metadata) : Option RunResult :=
  let cycles := detect_cycles m
  if cycles.isEmpty then
    some ⟨0, ["No cyclic dependencies found."], []⟩
  else
    (cycles.mapM (fun c => format_cycle c m)).map (fun rendered =>
      ⟨1, [],
        ("Error: Cyclic dependencies detected!" ++ "\n") ::
          (rendered.enum.flatMap (fun e =>
            ["Cycle " ++ toString (e.1 + 1) ++ ":", "  " ++ e.2, ""]))⟩)

/-! ### Proof-layer definitions -/

/-- A node set closed under the edges: following any edge out of the set
is impossible. -/
def Closed {α : Type} [DecidableEq α] (edges : List (α × α)) (s : Finset α) : Prop :=
  ∀ e ∈ edges, e.1 ∈ s → e.2 ∈ s

/-- The dependency graph's edges transported from node indices to the
package ids they carry. -/
def idEdgesList (m : Metadata) : List (String × String) :=
  (graphEdges m).map (fun e => (nodeF m e.1, nodeF m e.2))

/-- Reachability between package ids along dependency edges. -/
def idReachSet (m : Metadata) (a : String) : Finset String :=
  reachSet (idEdgesList m) (graphNodes m).length a

/-- Order-free description of a dependency edge between package ids `a`
and `b`: some workspace package with id `a` declares a dependency whose
name is the display name of some universe package whose id `b` is a
workspace node.  When display names are unique in the universe this
coincides with the find-first resolution performed by the code. -/
def semEdge (m : Metadata) (a b : String) : Prop :=
  ∃ p ∈ workspace_packages m, p.id = a ∧
    ∃ d ∈ p.dependencies, ∃ q ∈ m.packages,
      q.name = d.name ∧ q.id = b ∧ b ∈ graphNodes m

/-- The mutual-reachability class of a package id. -/
def semClass (m : Metadata) (a : String) : Finset String :=
  (graphNodes m).toFinset.filter (fun b => b ∈ idReachSet m a ∧ a ∈ idReachSet m b)

/-- The detected cycles with order forgotten: the set of member sets. -/
def cycleFinsets (m : Metadata) : Finset (Finset String) :=
  ((detect_cycles m).map List.toFinset).toFinset

/-! ### Concrete metadata values used as witness inputs -/

def pkgA : Package := ⟨"ida", "a", [⟨"b"⟩]⟩

def pkgB : Package := ⟨"idb", "b", [⟨"a"⟩]⟩

def pkgC : Package := ⟨"idc", "c", [⟨"c"⟩, ⟨"ext"⟩]⟩

def pkgExt : Package := ⟨"idext", "ext", []⟩

/-- Workspace `a ↔ b` plus a self-looping `c` (which also depends on the
external package `ext`), with `ext` outside the workspace. -/
def mEx : Metadata := ⟨[pkgA, pkgB, pkgC, pkgExt], ["ida", "idb", "idc"]⟩

/-- A one-package workspace with no dependencies: an edgeless graph. -/
def mEmpty : Metadata := ⟨[pkgExt], ["idext"]⟩

/-- Two workspace packages depending on each other and nothing else. -/
def mPair : Metadata := ⟨[pkgA, pkgB], ["ida", "idb"]⟩

/-- `mPair` with its package list reversed. -/
def mPairSwap : Metadata := ⟨[pkgB, pkgA], ["ida", "idb"]⟩

/-- Two universe packages share the display name `x`: `x1` is a workspace
member, `x2` is not.  Workspace package `a0` depends on the name `x`,
and `x1` depends back on the name `a`. -/
def mPerm1 : Metadata :=
  ⟨[⟨"x1", "x", [⟨"a"⟩]⟩, ⟨"x2", "x", []⟩, ⟨"a0", "a", [⟨"x"⟩]⟩], ["x1", "a0"]⟩

/-- `mPerm1` with the two `x`-named packages transposed. -/
def mPerm2 : Metadata :=
  ⟨[⟨"x2", "x", []⟩, ⟨"x1", "x", [⟨"a"⟩]⟩, ⟨"a0", "a", [⟨"x"⟩]⟩], ["x1", "a0"]⟩

def pkgD : Package := ⟨"idd", "d", [⟨"e"⟩, ⟨"d"⟩]⟩

def pkgE : Package := ⟨"ide", "e", [⟨"d"⟩]⟩

/-- A package `d` that both depends on itself and sits in a two-node
strongly connected component with `e`. -/
def mBoth : Metadata := ⟨[pkgD, pkgE], ["idd", "ide"]⟩

/-! ### Lemmas about `lookupIdx` -/

theorem lookupIdx_isSome {l : List String} {k : String} :
    (lookupIdx l k).isSome ↔ k ∈ l := by
  induction l with
  | nil => simp [lookupIdx]
  | cons x xs ih =>
    simp only [lookupIdx, List.mem_cons]
    cases h : lookupIdx xs k with
    | some j => simp [← ih, h]
    | none =>
      by_cases hx : x = k
      · simp [hx]
      · simp [hx, ← ih, h, Ne.symm hx]

theorem lookupIdx_eq_some {l : List String} {k : String} {i : Nat}
    (h : lookupIdx l k = some i) : ∃ hi : i < l.length, l.get ⟨i, hi⟩ = k := by
  induction l generalizing i with
  | nil => simp [lookupIdx] at h
  | cons x xs ih =>
    simp only [lookupIdx] at h
    cases hr : lookupIdx xs k with
    | some j =>
      rw [hr] at h
      obtain rfl : j + 1 = i := by simpa using h
      obtain ⟨hj, hget⟩ := ih hr
      exact ⟨Nat.succ_lt_succ hj, hget⟩
    | none =>
      rw [hr] at h
      by_cases hx : x = k
      · simp only [hx, if_pos rfl] at h
        obtain rfl : 0 = i := by simpa using h
        exact ⟨Nat.succ_pos _, hx⟩
      · simp [hx] at h

theorem lookupIdx_of_nodup {l : List String} {k : String} {i : Nat}
    (hnd : l.Nodup) (hi : i < l.length) (hget : l.get ⟨i, hi⟩ = k) :
    lookupIdx l k = some i := by
  induction l generalizing i with
  | nil => simp at hi
  | cons x xs ih =>
    obtain ⟨hx, hnd⟩ := List.nodup_cons.mp hnd
    simp only [lookupIdx]
    cases i with
    | zero =>
      simp only [List.get] at hget
      cases hr : lookupIdx xs k with
      | some j =>
        exfalso
        have : k ∈ xs := lookupIdx_isSome.mp (by simp [hr])
        rw [← hget] at this
        exact hx this
      | none => simp [hget]
    | succ i' =>
      have hi' : i' < xs.length := Nat.lt_of_succ_lt_succ hi
      have hget' : xs.get ⟨i', hi'⟩ = k := hget
      rw [ih hnd hi' hget']

theorem lookupIdx_nodup_iff {l : List String} {k : String} {i : Nat}
    (hnd : l.Nodup) :
    lookupIdx l k = some i ↔ ∃ hi : i < l.length, l.get ⟨i, hi⟩ = k := by
  constructor
  · exact lookupIdx_eq_some
  · rintro ⟨hi, hget⟩
    exact lookupIdx_of_nodup hnd hi hget

/-! ### Lemmas about `stepSet` and `reachSet` -/

theorem mem_stepSet {α : Type} [DecidableEq α] {edges : List (α × α)}
    {s : Finset α} {b : α} :
    b ∈ stepSet edges s ↔ b ∈ s ∨ ∃ e ∈ edges, e.1 ∈ s ∧ e.2 = b := by
  unfold stepSet
  simp only [Finset.mem_union, List.mem_toFinset, List.mem_filterMap]
  constructor
  · rintro (h | ⟨e, he, hif⟩)
    · exact Or.inl h
    · by_cases h1 : e.1 ∈ s
      · simp only [if_pos h1, Option.some.injEq] at hif
        exact Or.inr ⟨e, he, h1, hif⟩
      · simp [if_neg h1] at hif
  · rintro (h | ⟨e, he, h1, h2⟩)
    · exact Or.inl h
    · exact Or.inr ⟨e, he, by simp [if_pos h1, h2]⟩

theorem subset_stepSet {α : Type} [DecidableEq α] {edges : List (α × α)}
    {s : Finset α} : s ⊆ stepSet edges s :=
  Finset.subset_union_left

theorem reachSet_zero {α : Type} [DecidableEq α] {edges : List (α × α)} {a : α} :
    reachSet edges 0 a = {a} := rfl

theorem reachSet_succ {α : Type} [DecidableEq α] {edges : List (α × α)}
    {f : Nat} {a : α} :
    reachSet edges (f + 1) a = stepSet edges (reachSet edges f a) :=
  Function.iterate_succ_apply' _ _ _

theorem self_mem_reachSet {α : Type} [DecidableEq α] {edges : List (α × α)}
    {f : Nat} {a : α} : a ∈ reachSet edges f a := by
  induction f with
  | zero => simp [reachSet_zero]
  | succ f ih => rw [reachSet_succ]; exact subset_stepSet ih

theorem reachSet_le_mono {α : Type} [DecidableEq α] {edges : List (α × α)}
    {f g : Nat} {a : α} (h : f ≤ g) :
    reachSet edges f a ⊆ reachSet edges g a := by
  induction g with
  | zero => simp [Nat.le_zero.mp h]
  | succ g ih =>
    rcases Nat.lt_or_ge f (g + 1) with hf | hf
    · have := ih (Nat.lt_succ_iff.mp hf)
      rw [reachSet_succ]
      exact this.trans subset_stepSet
    · have : f = g + 1 := Nat.le_antisymm h hf
      subst this
      exact Finset.Subset.refl _

theorem stepSet_eq_of_closed {α : Type} [DecidableEq α] {edges : List (α × α)}
    {s : Finset α} (h : Closed edges s) : stepSet edges s = s := by
  apply Finset.Subset.antisymm
  · intro b hb
    rcases mem_stepSet.mp hb with hb | ⟨e, he, h1, h2⟩
    · exact hb
    · exact h2 ▸ h e he h1
  · exact subset_stepSet

theorem closed_of_stepSet_eq {α : Type} [DecidableEq α] {edges : List (α × α)}
    {s : Finset α} (h : stepSet edges s = s) : Closed edges s := by
  intro e he h1
  rw [← h]
  exact mem_stepSet.mpr (Or.inr ⟨e, he, h1, rfl⟩)

theorem reachSet_subset_of_closed {α : Type} [DecidableEq α]
    {edges : List (α × α)} {t : Finset α} {f : Nat} {a : α}
    (ht : Closed edges t) (ha : a ∈ t) : reachSet edges f a ⊆ t := by
  induction f with
  | zero => simp [reachSet_zero, Finset.singleton_subset_iff, ha]
  | succ f ih =>
    rw [reachSet_succ]
    intro b hb
    rcases mem_stepSet.mp hb with hb | ⟨e, he, h1, h2⟩
    · exact ih hb
    · exact h2 ▸ ht e he (ih h1)

theorem reachSet_subset_univ {α : Type} [DecidableEq α] {edges : List (α × α)}
    {U : Finset α} {f : Nat} {a : α}
    (hU : ∀ e ∈ edges, e.2 ∈ U) (ha : a ∈ U) : reachSet edges f a ⊆ U := by
  induction f with
  | zero => simp [reachSet_zero, Finset.singleton_subset_iff, ha]
  | succ f ih =>
    rw [reachSet_succ]
    intro b hb
    rcases mem_stepSet.mp hb with hb | ⟨e, he, _, h2⟩
    · exact ih hb
    · exact h2 ▸ hU e he

theorem reachSet_stable {α : Type} [DecidableEq α] {edges : List (α × α)}
    {k : Nat} {a : α}
    (h : reachSet edges (k + 1) a = reachSet edges k a) :
    ∀ g, k ≤ g → reachSet edges g a = reachSet edges k a := by
  intro g hg
  induction g with
  | zero => rw [Nat.le_zero.mp hg]
  | succ g ih =>
    rcases Nat.lt_or_ge k (g + 1) with hk | hk
    · have hkg : k ≤ g := Nat.lt_succ_iff.mp hk
      have := ih hkg
      calc reachSet edges (g + 1) a
          = stepSet edges (reachSet edges g a) := reachSet_succ
        _ = stepSet edges (reachSet edges k a) := by rw [this]
        _ = reachSet edges (k + 1) a := reachSet_succ.symm
        _ = reachSet edges k a := h
    · rw [Nat.le_antisymm hg hk]

theorem reachSet_card_ge {α : Type} [DecidableEq α] {edges : List (α × α)}
    {f : Nat} {a : α}
    (h : ∀ k < f, reachSet edges (k + 1) a ≠ reachSet edges k a) :
    f + 1 ≤ (reachSet edges f a).card := by
  induction f with
  | zero => simp [reachSet_zero]
  | succ f ih =>
    have hprev : f + 1 ≤ (reachSet edges f a).card :=
      ih (fun k hk => h k (Nat.lt_succ_of_lt hk))
    have hss : reachSet edges f a ⊂ reachSet edges (f + 1) a :=
      Finset.ssubset_iff_subset_ne.mpr
        ⟨reachSet_le_mono (Nat.le_succ f), fun he => h f (Nat.lt_succ_self f) he.symm⟩
    have := Finset.card_lt_card hss
    omega

theorem reachSet_closed_of_card_le {α : Type} [DecidableEq α]
    {edges : List (α × α)} {U : Finset α} {fuel : Nat} {a : α}
    (hU : ∀ e ∈ edges, e.2 ∈ U) (ha : a ∈ U) (hf : U.card ≤ fuel) :
    Closed edges (reachSet edges fuel a) := by
  have hex : ∃ k, k < U.card ∧ reachSet edges (k + 1) a = reachSet edges k a := by
    by_contra hco
    push_neg at hco
    have hall : ∀ k < U.card, reachSet edges (k + 1) a ≠ reachSet edges k a :=
      fun k hk => hco k hk
    have h1 : U.card + 1 ≤ (reachSet edges U.card a).card := reachSet_card_ge hall
    have h2 : (reachSet edges U.card a).card ≤ U.card :=
      Finset.card_le_card (reachSet_subset_univ hU ha)
    omega
  obtain ⟨k, hk, hstab⟩ := hex
  have hfk : reachSet edges fuel a = reachSet edges k a :=
    reachSet_stable hstab fuel (le_trans (Nat.le_of_lt hk) hf)
  have hfk1 : reachSet edges (fuel + 1) a = reachSet edges k a :=
    reachSet_stable hstab (fuel + 1) (le_trans (Nat.le_of_lt hk) (Nat.le_succ_of_le hf))
  apply closed_of_stepSet_eq
  calc stepSet edges (reachSet edges fuel a)
      = reachSet edges (fuel + 1) a := reachSet_succ.symm
    _ = reachSet edges k a := hfk1
    _ = reachSet edges fuel a := hfk.symm

theorem reachSet_trans_subset {α : Type} [DecidableEq α]
    {edges : List (α × α)} {U : Finset α} {fuel : Nat} {a b : α}
    (hU : ∀ e ∈ edges, e.2 ∈ U) (ha : a ∈ U) (hf : U.card ≤ fuel)
    (hb : b ∈ reachSet edges fuel a) :
    reachSet edges fuel b ⊆ reachSet edges fuel a :=
  reachSet_subset_of_closed (reachSet_closed_of_card_le hU ha hf) hb

theorem stepSet_congr {α : Type} [DecidableEq α] {edges₁ edges₂ : List (α × α)}
    (h : ∀ e, e ∈ edges₁ ↔ e ∈ edges₂) (s : Finset α) :
    stepSet edges₁ s = stepSet edges₂ s := by
  ext b
  rw [mem_stepSet, mem_stepSet]
  constructor
  · rintro (hb | ⟨e, he, h1, h2⟩)
    · exact Or.inl hb
    · exact Or.inr ⟨e, (h e).mp he, h1, h2⟩
  · rintro (hb | ⟨e, he, h1, h2⟩)
    · exact Or.inl hb
    · exact Or.inr ⟨e, (h e).mpr he, h1, h2⟩

theorem reachSet_congr {α : Type} [DecidableEq α] {edges₁ edges₂ : List (α × α)}
    (h : ∀ e, e ∈ edges₁ ↔ e ∈ edges₂) (f : Nat) (a : α) :
    reachSet edges₁ f a = reachSet edges₂ f a := by
  induction f with
  | zero => rfl
  | succ f ih => rw [reachSet_succ, reachSet_succ, ih, stepSet_congr h]

theorem stepSet_image {α β : Type} [DecidableEq α] [DecidableEq β]
    (f : α → β) (edges : List (α × α)) (S : Finset α)
    (hE : ∀ e ∈ edges, e.1 ∈ S ∧ e.2 ∈ S)
    (hInj : ∀ x ∈ S, ∀ y ∈ S, f x = f y → x = y)
    (s : Finset α) (hs : s ⊆ S) :
    stepSet (edges.map (fun e => (f e.1, f e.2))) (s.image f)
      = (stepSet edges s).image f := by
  ext b
  rw [mem_stepSet]
  simp only [Finset.mem_image, List.mem_map]
  constructor
  · rintro (⟨x, hx, rfl⟩ | ⟨e', ⟨e, he, rfl⟩, h1, h2⟩)
    · exact ⟨x, subset_stepSet hx, rfl⟩
    · simp only at h1 h2
      obtain ⟨u, hu, hfu⟩ := h1
      have he1 : e.1 ∈ S := (hE e he).1
      have hu' : u ∈ S := hs hu
      have : u = e.1 := hInj u hu' e.1 he1 hfu
      subst this
      refine ⟨e.2, ?_, h2⟩
      exact mem_stepSet.mpr (Or.inr ⟨e, he, hu, rfl⟩)
  · rintro ⟨x, hx, rfl⟩
    rcases mem_stepSet.mp hx with hx | ⟨e, he, h1, h2⟩
    · exact Or.inl ⟨x, hx, rfl⟩
    · refine Or.inr ⟨(f e.1, f e.2), ⟨e, he, rfl⟩, ⟨e.1, h1, rfl⟩, ?_⟩
      simp [h2]

theorem reachSet_image {α β : Type} [DecidableEq α] [DecidableEq β]
    (f : α → β) (edges : List (α × α)) (S : Finset α)
    (hE : ∀ e ∈ edges, e.1 ∈ S ∧ e.2 ∈ S)
    (hInj : ∀ x ∈ S, ∀ y ∈ S, f x = f y → x = y)
    {a : α} (ha : a ∈ S) (fuel : Nat) :
    reachSet (edges.map (fun e => (f e.1, f e.2))) fuel (f a)
      = (reachSet edges fuel a).image f := by
  induction fuel with
  | zero => simp [reachSet_zero]
  | succ fuel ih =>
    rw [reachSet_succ, reachSet_succ, ih,
      stepSet_image f edges S hE hInj _ (reachSet_subset_univ (fun e he => (hE e he).2) ha)]

theorem mem_reachSet_image_iff {α β : Type} [DecidableEq α] [DecidableEq β]
    (f : α → β) (edges : List (α × α)) (S : Finset α)
    (hE : ∀ e ∈ edges, e.1 ∈ S ∧ e.2 ∈ S)
    (hInj : ∀ x ∈ S, ∀ y ∈ S, f x = f y → x = y)
    {a b : α} (ha : a ∈ S) (hb : b ∈ S) (fuel : Nat) :
    f b ∈ reachSet (edges.map (fun e => (f e.1, f e.2))) fuel (f a)
      ↔ b ∈ reachSet edges fuel a := by
  rw [reachSet_image f edges S hE hInj ha fuel]
  simp only [Finset.mem_image]
  constructor
  · rintro ⟨u, hu, hfu⟩
    have hu' : u ∈ S := reachSet_subset_univ (fun e he => (hE e he).2) ha hu
    have : u = b := hInj u hu' b hb hfu
    exact this ▸ hu
  · intro h
    exact ⟨b, h, rfl⟩

/-! ### Characterization of the built graph -/

theorem nodeMapGet_isSome_iff {m : Metadata} {k : String} :
    (nodeMapGet m k).isSome ↔ k ∈ graphNodes m :=
  lookupIdx_isSome

theorem nodeMapGet_lt {m : Metadata} {k : String} {i : Nat}
    (h : nodeMapGet m k = some i) : i < (graphNodes m).length := by
  obtain ⟨hi, _⟩ := lookupIdx_eq_some h
  exact hi

theorem nodeF_of_nodeMapGet {m : Metadata} {k : String} {i : Nat}
    (h : nodeMapGet m k = some i) : nodeF m i = k := by
  obtain ⟨hi, hget⟩ := lookupIdx_eq_some h
  unfold nodeF
  rw [List.getD_eq_getElem _ _ hi]
  rw [List.get_eq_getElem] at hget
  exact hget

theorem mem_graphEdges {m : Metadata} {i j : Nat} :
    (i, j) ∈ graphEdges m ↔
      ∃ p ∈ workspace_packages m, nodeMapGet m p.id = some i ∧
        ∃ d ∈ p.dependencies, ∃ q, resolveDep m d.name = some q ∧
          nodeMapGet m q.id = some j := by
  unfold graphEdges
  rw [List.mem_flatMap]
  constructor
  · rintro ⟨p, hp, hmem⟩
    split at hmem
    · simp at hmem
    · next fromIdx hfrom =>
      rw [List.mem_filterMap] at hmem
      obtain ⟨d, hd, hsome⟩ := hmem
      split at hsome
      · simp at hsome
      · next q hq =>
        cases ht : nodeMapGet m q.id with
        | none => rw [ht] at hsome; simp at hsome
        | some toIdx =>
          rw [ht] at hsome
          simp only [Option.map_some', Option.some.injEq, Prod.mk.injEq] at hsome
          obtain ⟨rfl, rfl⟩ := hsome
          exact ⟨p, hp, hfrom, d, hd, q, hq, ht⟩
  · rintro ⟨p, hp, hfrom, d, hd, q, hq, ht⟩
    refine ⟨p, hp, ?_⟩
    simp only [hfrom]
    rw [List.mem_filterMap]
    refine ⟨d, hd, ?_⟩
    simp [hq, ht]

theorem graphEdges_lt {m : Metadata} {e : Nat × Nat} (h : e ∈ graphEdges m) :
    e.1 < (graphNodes m).length ∧ e.2 < (graphNodes m).length := by
  obtain ⟨i, j⟩ := e
  obtain ⟨p, _, hfrom, _, _, q, _, ht⟩ := mem_graphEdges.mp h
  exact ⟨nodeMapGet_lt hfrom, nodeMapGet_lt ht⟩

/-! ### Filtering an initial segment of the naturals -/

theorem filter_range_singleton : ∀ {n : Nat} (p : Nat → Bool) (x : Nat),
    x < n → (∀ j, j < n → (p j = true ↔ j = x)) →
    (List.range n).filter p = [x] := by
  intro n
  induction n with
  | zero => intro p x hx _; omega
  | succ n ih =>
    intro p x hx hp
    rw [List.range_succ, List.filter_append]
    by_cases hxn : x = n
    · subst hxn
      have h1 : (List.range x).filter p = [] := by
        rw [List.filter_eq_nil_iff]
        intro a ha
        have ha' : a < x := List.mem_range.mp ha
        intro hpa
        have := (hp a (by omega)).mp hpa
        omega
      have h2 : List.filter p [x] = [x] := by
        have := (hp x (by omega)).mpr rfl
        simp [this]
      rw [h1, h2]
      rfl
    · have hx' : x < n := by omega
      rw [ih p x hx' (fun j hj => hp j (by omega))]
      have h2 : List.filter p [n] = [] := by
        rw [List.filter_eq_nil_iff]
        intro a ha
        have ha' : a = n := by simpa using ha
        subst ha'
        intro hpa
        have := (hp a (by omega)).mp hpa
        omega
      rw [h2]
      simp

theorem filter_range_pair : ∀ {n : Nat} (p : Nat → Bool) (x y : Nat),
    x < y → y < n → (∀ j, j < n → (p j = true ↔ j = x ∨ j = y)) →
    (List.range n).filter p = [x, y] := by
  intro n
  induction n with
  | zero => intro p x y hxy hy _; omega
  | succ n ih =>
    intro p x y hxy hy hp
    rw [List.range_succ, List.filter_append]
    by_cases hyn : y = n
    · subst hyn
      have h1 : (List.range y).filter p = [x] := by
        apply filter_range_singleton p x hxy
        intro j hj
        rw [hp j (by omega)]
        omega
      have h2 : List.filter p [y] = [y] := by
        have := (hp y (by omega)).mpr (Or.inr rfl)
        simp [this]
      rw [h1, h2]
      rfl
    · have hy' : y < n := by omega
      rw [ih p x y hxy hy' (fun j hj => hp j (by omega))]
      have h2 : List.filter p [n] = [] := by
        rw [List.filter_eq_nil_iff]
        intro a ha
        have ha' : a = n := by simpa using ha
        subst ha'
        intro hpa
        have := (hp a (by omega)).mp hpa
        omega
      rw [h2]
      simp

/-! ### Basic facts about `sccOf` and `tarjan_scc` -/

theorem mem_sccOf {n : Nat} {edges : List (Nat × Nat)} {i j : Nat} :
    j ∈ sccOf n edges i ↔
      j < n ∧ j ∈ reachSet edges n i ∧ i ∈ reachSet edges n j := by
  unfold sccOf
  rw [List.mem_filter, List.mem_range]
  simp only [Bool.and_eq_true, decide_eq_true_eq]

theorem sccOf_nodup {n : Nat} {edges : List (Nat × Nat)} {i : Nat} :
    (sccOf n edges i).Nodup :=
  (List.nodup_range n).filter _

theorem mem_sccOf_self {n : Nat} {edges : List (Nat × Nat)} {i : Nat}
    (h : i < n) : i ∈ sccOf n edges i :=
  mem_sccOf.mpr ⟨h, self_mem_reachSet, self_mem_reachSet⟩

theorem sccOf_subset_range {n : Nat} {edges : List (Nat × Nat)} {i j : Nat}
    (h : j ∈ sccOf n edges i) : j < n :=
  (mem_sccOf.mp h).1

theorem mem_tarjan_scc {n : Nat} {edges : List (Nat × Nat)} {c : List Nat} :
    c ∈ tarjan_scc n edges ↔
      ∃ i, i < n ∧ (sccOf n edges i).head? = some i ∧ c = sccOf n edges i := by
  unfold tarjan_scc
  rw [List.mem_map]
  constructor
  · rintro ⟨i, hi, rfl⟩
    rw [List.mem_filter, List.mem_range] at hi
    exact ⟨i, hi.1, by simpa using hi.2, rfl⟩
  · rintro ⟨i, hi, hhead, rfl⟩
    exact ⟨i, by rw [List.mem_filter, List.mem_range]; exact ⟨hi, by simpa using hhead⟩, rfl⟩

/-! ### Characterizing the two parts of `detect_cycles` -/

theorem mem_sccCycles {m : Metadata} {c : List String} :
    c ∈ sccCycles m ↔
      ∃ scc, scc ∈ tarjan_scc (graphNodes m).length (graphEdges m) ∧
        1 < scc.length ∧ c = scc.map (nodeF m) := by
  unfold sccCycles
  rw [List.mem_map]
  constructor
  · rintro ⟨scc, hscc, rfl⟩
    rw [List.mem_filter] at hscc
    exact ⟨scc, hscc.1, by simpa using hscc.2, rfl⟩
  · rintro ⟨scc, h1, h2, rfl⟩
    exact ⟨scc, List.mem_filter.mpr ⟨h1, by simpa using h2⟩, rfl⟩

theorem mem_selfLoopCycles {m : Metadata} {c : List String} :
    c ∈ selfLoopCycles m ↔
      ∃ p ∈ workspace_packages m, c = [p.id] ∧
        ∃ i, nodeMapGet m p.id = some i ∧ (i, i) ∈ graphEdges m := by
  unfold selfLoopCycles
  rw [List.mem_filterMap]
  constructor
  · rintro ⟨p, hp, hsome⟩
    split at hsome
    · simp at hsome
    · next i hi =>
      by_cases hedge : (i, i) ∈ graphEdges m
      · rw [if_pos hedge] at hsome
        obtain rfl : [p.id] = c := by simpa using hsome
        exact ⟨p, hp, rfl, i, hi, hedge⟩
      · rw [if_neg hedge] at hsome
        simp at hsome
  · rintro ⟨p, hp, rfl, i, hi, hedge⟩
    refine ⟨p, hp, ?_⟩
    simp [hi, hedge]

/-! ### `format_cycle` basics -/

theorem format_cycle_cons {m : Metadata} {a : String} {rest : List String} :
    format_cycle (a :: rest) m =
      some (String.intercalate " -> "
        ((a :: rest).map (resolveName m) ++ [resolveName m a])) := by
  rfl

theorem format_cycle_isSome {m : Metadata} {c : List String} (h : c ≠ []) :
    ∃ s, format_cycle c m = some s := by
  cases c with
  | nil => exact absurd rfl h
  | cons a rest => exact ⟨_, format_cycle_cons⟩

theorem length_of_mem_sccCycles {m : Metadata} {c : List String}
    (h : c ∈ sccCycles m) : 2 ≤ c.length := by
  obtain ⟨scc, _, hlen, rfl⟩ := mem_sccCycles.mp h
  simpa using hlen

theorem length_of_mem_selfLoopCycles {m : Metadata} {c : List String}
    (h : c ∈ selfLoopCycles m) : c.length = 1 := by
  obtain ⟨p, _, rfl, _⟩ := mem_selfLoopCycles.mp h
  rfl

theorem ne_nil_of_mem_detect_cycles {m : Metadata} {c : List String}
    (h : c ∈ detect_cycles m) : c ≠ [] := by
  unfold detect_cycles at h
  rcases List.mem_append.mp h with h | h
  · have := length_of_mem_sccCycles h
    intro hc; rw [hc] at this; simp at this
  · have := length_of_mem_selfLoopCycles h
    intro hc; rw [hc] at this; simp at this

theorem format_cycle_some_of_mem {m : Metadata} {c : List String}
    (h : c ∈ detect_cycles m) : ∃ s, format_cycle c m = some s :=
  format_cycle_isSome (ne_nil_of_mem_detect_cycles h)

/-! ### `Option`-valued `mapM` and `enum` helpers -/

theorem mapM_isSome {α β : Type} (f : α → Option β) :
    ∀ l : List α, (∀ a ∈ l, (f a).isSome) → ∃ bs, l.mapM f = some bs := by
  intro l
  induction l with
  | nil => intro _; exact ⟨[], rfl⟩
  | cons a l ih =>
    intro h
    obtain ⟨b, hb⟩ := Option.isSome_iff_exists.mp (h a (by simp))
    obtain ⟨bs, hbs⟩ := ih (fun x hx => h x (by simp [hx]))
    refine ⟨b :: bs, ?_⟩
    rw [List.mapM_cons, hb, hbs]
    rfl

theorem mem_of_mapM_some {α β : Type} (f : α → Option β) :
    ∀ (l : List α) (bs : List β), l.mapM f = some bs →
      ∀ a ∈ l, ∃ b, f a = some b ∧ b ∈ bs := by
  intro l
  induction l with
  | nil => intro bs _ a ha; simp at ha
  | cons x l ih =>
    intro bs hmap a ha
    rw [List.mapM_cons] at hmap
    cases hfx : f x with
    | none => rw [hfx] at hmap; simp at hmap
    | some b0 =>
      rw [hfx] at hmap
      cases hrest : l.mapM f with
      | none => rw [hrest] at hmap; simp at hmap
      | some bs0 =>
        rw [hrest] at hmap
        have hbs : b0 :: bs0 = bs := by simpa using hmap
        subst hbs
        rcases List.mem_cons.mp ha with rfl | ha'
        · exact ⟨b0, hfx, by simp⟩
        · obtain ⟨b, hb, hbmem⟩ := ih bs0 hrest a ha'
          exact ⟨b, hb, by simp [hbmem]⟩

theorem exists_mem_enum {α : Type} {b : α} {bs : List α} (h : b ∈ bs) :
    ∃ i, (i, b) ∈ bs.enum := by
  obtain ⟨i, hi, rfl⟩ := List.mem_iff_getElem.mp h
  refine ⟨i, ?_⟩
  have hl : i < bs.enum.length := by simpa [List.enum_length] using hi
  have hg : bs.enum[i] = (i, bs[i]) := List.getElem_enum bs i hl
  rw [← hg]
  exact List.getElem_mem hl

theorem nodeF_mem {m : Metadata} {j : Nat} (h : j < (graphNodes m).length) :
    nodeF m j ∈ graphNodes m := by
  unfold nodeF
  rw [List.getD_eq_getElem _ _ h]
  exact List.getElem_mem h

theorem stepSet_nil {α : Type} [DecidableEq α] (s : Finset α) :
    stepSet ([] : List (α × α)) s = s := by
  unfold stepSet
  simp

theorem reachSet_nil {α : Type} [DecidableEq α] (f : Nat) (a : α) :
    reachSet ([] : List (α × α)) f a = {a} := by
  induction f with
  | zero => rfl
  | succ f ih => rw [reachSet_succ, ih, stepSet_nil]

theorem mem_detect_cycles_mem_nodes {m : Metadata} :
    ∀ c ∈ detect_cycles m, ∀ x ∈ c, x ∈ graphNodes m := by
  intro c hc x hx
  unfold detect_cycles at hc
  rcases List.mem_append.mp hc with hc | hc
  · obtain ⟨scc, hmem, _, rfl⟩ := mem_sccCycles.mp hc
    obtain ⟨j, hj, rfl⟩ := List.mem_map.mp hx
    obtain ⟨i, hi, _, rfl⟩ := mem_tarjan_scc.mp hmem
    exact nodeF_mem (sccOf_subset_range hj)
  · obtain ⟨p, hp, rfl, _⟩ := mem_selfLoopCycles.mp hc
    have : x = p.id := by simpa using hx
    subst this
    exact List.mem_map.mpr ⟨p, hp, rfl⟩

/-! ### Claim theorems (first batch) -/

/-- C2: an edge `(i, j)` is added to the graph if and only if some
workspace package `p` at node `i` declares a dependency whose name
resolves (find-first over the full package universe) to a package whose
id is a workspace member node `j`; hence dependencies on non-workspace
packages are never edges, every edge target is a workspace node, and no
cycle ever mentions a non-workspace package. -/
theorem C2_edge_iff_workspace_resolution (m : Metadata) (i j : Nat) :
    ((i, j) ∈ graphEdges m ↔
      ∃ p ∈ workspace_packages m, nodeMapGet m p.id = some i ∧
        ∃ d ∈ p.dependencies, ∃ q, resolveDep m d.name = some q ∧
          nodeMapGet m q.id = some j) ∧
    ((i, j) ∈ graphEdges m → nodeF m j ∈ graphNodes m) ∧
    (∀ c ∈ detect_cycles m, ∀ x ∈ c, x ∈ graphNodes m) := by
  refine ⟨mem_graphEdges, ?_, mem_detect_cycles_mem_nodes⟩
  intro h
  exact nodeF_mem (graphEdges_lt h).2

theorem C2_witness :
    (0, 1) ∈ graphEdges mEx ∧ nodeF mEx 1 ∈ graphNodes mEx ∧
      "ida" ∈ graphNodes mEx := by
  refine ⟨?_, ?_, ?_⟩
  · exact (C2_edge_iff_workspace_resolution mEx 0 1).1.mpr
      ⟨pkgA, by decide, by decide, ⟨"b"⟩, by decide, pkgB, by decide, by decide⟩
  · exact (C2_edge_iff_workspace_resolution mEx 0 1).2.1 (by decide)
  · exact (C2_edge_iff_workspace_resolution mEx 0 1).2.2
      ["ida", "idb"] (by decide) "ida" (by decide)

/-- C5: every workspace package whose node has an edge to itself yields a
length-1 cycle containing exactly its identifier, regardless of any other
structure of the graph. -/
theorem C5_self_dependency_reported (m : Metadata) (p : Package) (i : Nat)
    (hp : p ∈ workspace_packages m) (hi : nodeMapGet m p.id = some i)
    (hedge : (i, i) ∈ graphEdges m) : [p.id] ∈ detect_cycles m := by
  unfold detect_cycles
  exact List.mem_append.mpr
    (Or.inr (mem_selfLoopCycles.mpr ⟨p, hp, rfl, i, hi, hedge⟩))

theorem C5_witness :
    pkgC ∈ workspace_packages mEx ∧ nodeMapGet mEx pkgC.id = some 2 ∧
      (2, 2) ∈ graphEdges mEx ∧ ["idc"] ∈ detect_cycles mEx :=
  ⟨by decide, by decide, by decide,
    C5_self_dependency_reported mEx pkgC 2 (by decide) (by decide) (by decide)⟩

/-- C9: every SCC-derived cycle has at least two members, every self-loop
cycle has exactly one, so every cycle returned by `detect_cycles` is
non-empty and `format_cycle` (which needs a non-empty input) succeeds on
all of them. -/
theorem C9_cycles_nonempty_render_safe (m : Metadata) :
    (∀ c ∈ sccCycles m, 2 ≤ c.length) ∧
    (∀ c ∈ selfLoopCycles m, c.length = 1) ∧
    (∀ c ∈ detect_cycles m, c ≠ [] ∧ (format_cycle c m).isSome) := by
  refine ⟨fun c hc => length_of_mem_sccCycles hc,
          fun c hc => length_of_mem_selfLoopCycles hc,
          fun c hc => ⟨ne_nil_of_mem_detect_cycles hc, ?_⟩⟩
  obtain ⟨s, hs⟩ := format_cycle_some_of_mem hc
  simp [hs]

theorem C9_witness :
    2 ≤ (["ida", "idb"] : List String).length ∧
    (["idc"] : List String).length = 1 ∧
    (format_cycle ["idc"] mEx).isSome :=
  ⟨(C9_cycles_nonempty_render_safe mEx).1 ["ida", "idb"] (by decide),
   (C9_cycles_nonempty_render_safe mEx).2.1 ["idc"] (by decide),
   ((C9_cycles_nonempty_render_safe mEx).2.2 ["idc"] (by decide)).2⟩

/-- C4: rendering a cycle maps each identifier to its display name with a
non-failing fallback to the raw identifier when no package record
matches, joins the names with `" -> "`, and repeats the first element's
name at the end so the path is closed; a length-1 cycle degenerates to
`A -> A`. -/
theorem C4_format_cycle_closed_path (m : Metadata) (a : String) (rest : List String) :
    format_cycle (a :: rest) m =
      some (String.intercalate " -> "
        ((a :: rest).map (resolveName m) ++ [resolveName m a])) ∧
    (∀ pid : String, (∀ p ∈ m.packages, p.id ≠ pid) → resolveName m pid = pid) ∧
    format_cycle [a] m = some (resolveName m a ++ " -> " ++ resolveName m a) := by
  refine ⟨format_cycle_cons, ?_, ?_⟩
  · intro pid hno
    unfold resolveName
    cases hf : m.packages.find? (fun p => p.id = pid) with
    | none => rfl
    | some p =>
      exfalso
      have hmem := List.mem_of_find?_eq_some hf
      have hpid := List.find?_some hf
      exact hno p hmem (by simpa using hpid)
  · rw [format_cycle_cons]
    rfl

theorem C4_witness :
    format_cycle ["ida", "idb"] mEx = some "a -> b -> a" ∧
    resolveName mEx "nosuch" = "nosuch" ∧
    format_cycle ["idc"] mEx = some "c -> c" := by
  refine ⟨?_, ?_, ?_⟩
  · rw [(C4_format_cycle_closed_path mEx "ida" ["idb"]).1]
    decide
  · exact (C4_format_cycle_closed_path mEx "nosuch" []).2.1 "nosuch" (by decide)
  · rw [(C4_format_cycle_closed_path mEx "idc" []).2.2]
    decide

/-- C8: a dependency graph with zero edges yields an empty cycle list. -/
theorem C8_no_edges_no_cycles (m : Metadata) (h : graphEdges m = []) :
    detect_cycles m = [] := by
  unfold detect_cycles
  have hscc : sccCycles m = [] := by
    rw [List.eq_nil_iff_forall_not_mem]
    intro c hc
    obtain ⟨scc, hmem, hlen, rfl⟩ := mem_sccCycles.mp hc
    obtain ⟨i, hi, _, rfl⟩ := mem_tarjan_scc.mp hmem
    have hone : sccOf (graphNodes m).length (graphEdges m) i = [i] := by
      unfold sccOf
      apply filter_range_singleton _ i hi
      intro j hj
      constructor
      · intro hpj
        simp only [h, reachSet_nil, Bool.and_eq_true, decide_eq_true_eq,
          Finset.mem_singleton] at hpj
        exact hpj.1
      · intro hj'
        subst hj'
        simp [h, reachSet_nil]
    rw [hone] at hlen
    simp at hlen
  have hself : selfLoopCycles m = [] := by
    rw [List.eq_nil_iff_forall_not_mem]
    intro c hc
    obtain ⟨p, _, _, i, _, hedge⟩ := mem_selfLoopCycles.mp hc
    rw [h] at hedge
    simp at hedge
  rw [hscc, hself]
  rfl

theorem C8_witness : graphEdges mEmpty = [] ∧ detect_cycles mEmpty = [] :=
  ⟨by decide, C8_no_edges_no_cycles mEmpty (by decide)⟩

/-- C3: the cycle list is exactly the concatenation of the multi-member
SCC cycles and the self-loop cycles, with no deduplication: every SCC
cycle comes from a component with more than one member, a singleton
`[a]` occurs in the self-loop part exactly when a workspace package with
id `a` has a self-edge, and a self-looping package that also lies in a
multi-node SCC cycle is reported through both parts (as two distinct
entries of the result). -/
theorem C3_concatenation_no_dedup (m : Metadata) :
    detect_cycles m = sccCycles m ++ selfLoopCycles m ∧
    (∀ c ∈ sccCycles m,
      ∃ scc ∈ tarjan_scc (graphNodes m).length (graphEdges m),
        1 < scc.length ∧ c = scc.map (nodeF m)) ∧
    (∀ a : String, [a] ∈ selfLoopCycles m ↔
      ∃ p ∈ workspace_packages m, p.id = a ∧
        ∃ i, nodeMapGet m p.id = some i ∧ (i, i) ∈ graphEdges m) ∧
    (∀ p ∈ workspace_packages m, ∀ i, nodeMapGet m p.id = some i →
      (i, i) ∈ graphEdges m → ∀ c ∈ sccCycles m, p.id ∈ c →
        c ∈ detect_cycles m ∧ [p.id] ∈ detect_cycles m ∧ c ≠ [p.id]) := by
  refine ⟨rfl, ?_, ?_, ?_⟩
  · intro c hc
    obtain ⟨scc, h1, h2, h3⟩ := mem_sccCycles.mp hc
    exact ⟨scc, h1, h2, h3⟩
  · intro a
    constructor
    · intro h
      obtain ⟨p, hp, heq, i, hi, hedge⟩ := mem_selfLoopCycles.mp h
      have : p.id = a := by simpa using heq.symm
      exact ⟨p, hp, this, i, hi, hedge⟩
    · rintro ⟨p, hp, rfl, i, hi, hedge⟩
      exact mem_selfLoopCycles.mpr ⟨p, hp, rfl, i, hi, hedge⟩
  · intro p hp i hi hedge c hc hpid
    refine ⟨List.mem_append.mpr (Or.inl hc),
      List.mem_append.mpr (Or.inr (mem_selfLoopCycles.mpr ⟨p, hp, rfl, i, hi, hedge⟩)), ?_⟩
    intro hcontra
    have := length_of_mem_sccCycles hc
    rw [hcontra] at this
    simp at this

theorem C3_witness :
    detect_cycles mBoth = sccCycles mBoth ++ selfLoopCycles mBoth ∧
    (["idd"] ∈ selfLoopCycles mBoth) ∧
    ["idd", "ide"] ∈ detect_cycles mBoth ∧ ["idd"] ∈ detect_cycles mBoth ∧
    ["idd", "ide"] ≠ ["idd"] := by
  have h := C3_concatenation_no_dedup mBoth
  have hboth := h.2.2.2 pkgD (by decide) 0 (by decide) (by decide)
    ["idd", "ide"] (by decide) (by decide)
  exact ⟨h.1, (h.2.2.1 "idd").mpr ⟨pkgD, by decide, by decide, 0, by decide, by decide⟩,
    hboth.1, hboth.2.1, hboth.2.2⟩

/-- C1: the exit decision is driven solely by emptiness of the cycle
list: an empty list prints the confirmation to stdout and the process
finishes with exit code 0; a non-empty list renders every cycle to the
error stream and the process exits with the non-zero code 1. -/
theorem C1_exit_code_iff_empty (m : Metadata) :
    (detect_cycles m = [] →
      run_main m = some ⟨0, ["No cyclic dependencies found."], []⟩) ∧
    (detect_cycles m ≠ [] →
      ∃ r, run_main m = some r ∧ r.exitCode = 1 ∧ r.exitCode ≠ 0 ∧
        r.stdoutLines = [] ∧
        ∀ c ∈ detect_cycles m, ∃ s, format_cycle c m = some s ∧
          ("  " ++ s) ∈ r.stderrLines) := by
  constructor
  · intro h
    unfold run_main
    simp [h]
  · intro h
    have hne : (detect_cycles m).isEmpty = false := by
      cases hd : detect_cycles m with
      | nil => exact absurd hd h
      | cons a l => rfl
    obtain ⟨bs, hbs⟩ := mapM_isSome (fun c => format_cycle c m) (detect_cycles m)
      (fun c hc => by
        obtain ⟨s, hs⟩ := format_cycle_some_of_mem hc
        simp [hs])
    refine ⟨⟨1, [],
      ("Error: Cyclic dependencies detected!" ++ "\n") ::
        (bs.enum.flatMap (fun e =>
          ["Cycle " ++ toString (e.1 + 1) ++ ":", "  " ++ e.2, ""]))⟩, ?_, rfl,
      Nat.one_ne_zero, rfl, ?_⟩
    · unfold run_main
      simp only [hne, Bool.false_eq_true, if_false, hbs, Option.map_some']
    · intro c hc
      obtain ⟨s, hs, hmem⟩ := mem_of_mapM_some _ _ _ hbs c hc
      refine ⟨s, hs, ?_⟩
      apply List.mem_cons_of_mem
      rw [List.mem_flatMap]
      obtain ⟨idx, hidx⟩ := exists_mem_enum hmem
      exact ⟨(idx, s), hidx, by simp⟩

theorem C1_witness :
    run_main mEmpty = some ⟨0, ["No cyclic dependencies found."], []⟩ ∧
    ∃ r, run_main mEx = some r ∧ r.exitCode = 1 ∧ r.exitCode ≠ 0 ∧
      r.stdoutLines = [] ∧
      ∀ c ∈ detect_cycles mEx, ∃ s, format_cycle c mEx = some s ∧
        ("  " ++ s) ∈ r.stderrLines :=
  ⟨(C1_exit_code_iff_empty mEmpty).1 (by decide),
   (C1_exit_code_iff_empty mEx).2 (by decide)⟩

/-! ### First-match lookup -/

theorem find?_first_of_prefix_none {α : Type} (p : α → Bool) :
    ∀ (l1 : List α) (q : α) (l2 : List α), p q = true → (∀ x ∈ l1, p x = false) →
      List.find? p (l1 ++ q :: l2) = some q := by
  intro l1
  induction l1 with
  | nil =>
    intro q l2 hq _
    simp [List.find?_cons_of_pos _ hq]
  | cons x l1 ih =>
    intro q l2 hq hall
    have hx : p x = false := hall x (by simp)
    rw [List.cons_append, List.find?_cons_of_neg _ (by simp [hx])]
    exact ih q l2 hq (fun z hz => hall z (by simp [hz]))

/-- C10: name resolution is deterministic and first-match: when the
package universe splits as a prefix with no match followed by a matching
package, edge construction resolves a dependency name to exactly that
first match, and rendering resolves a package identifier to the name of
exactly the first package with that identifier. -/
theorem C10_first_match_resolution (m : Metadata) :
    (∀ (nm : String) (l1 l2 : List Package) (q : Package),
      m.packages = l1 ++ q :: l2 → q.name = nm → (∀ x ∈ l1, x.name ≠ nm) →
      resolveDep m nm = some q) ∧
    (∀ (pid : String) (l1 l2 : List Package) (r : Package),
      m.packages = l1 ++ r :: l2 → r.id = pid → (∀ x ∈ l1, x.id ≠ pid) →
      resolveName m pid = r.name) := by
  constructor
  · intro nm l1 l2 q hsplit hq hfirst
    unfold resolveDep
    rw [hsplit]
    apply find?_first_of_prefix_none _ l1 q l2 (by simp [hq])
    intro x hx
    simp [hfirst x hx]
  · intro pid l1 l2 r hsplit hr hfirst
    unfold resolveName
    rw [hsplit]
    rw [find?_first_of_prefix_none _ l1 r l2 (by simp [hr])
      (fun x hx => by simp [hfirst x hx])]

theorem C10_witness :
    resolveDep mPerm1 "x" = some ⟨"x1", "x", [⟨"a"⟩]⟩ ∧
    resolveName mEx "ida" = "a" :=
  ⟨(C10_first_match_resolution mPerm1).1 "x" []
      [⟨"x2", "x", []⟩, ⟨"a0", "a", [⟨"x"⟩]⟩] ⟨"x1", "x", [⟨"a"⟩]⟩
      (by decide) (by decide) (by decide),
   (C10_first_match_resolution mEx).2 "ida" [] [pkgB, pkgC, pkgExt] pkgA
      (by decide) (by decide) (by decide)⟩

/-! ### Graphs whose only edges are a two-cycle -/

theorem two_cycle_reach_other {m : Metadata} {x y : Nat}
    (honly : ∀ e ∈ graphEdges m, e = (x, y) ∨ e = (y, x))
    {z : Nat} (hz : z ∉ ({x, y} : Finset Nat)) (f : Nat) :
    reachSet (graphEdges m) f z = {z} := by
  apply Finset.Subset.antisymm
  · apply reachSet_subset_of_closed
    · intro e he h1
      exfalso
      apply hz
      rcases honly e he with rfl | rfl
      · rw [← Finset.mem_singleton.mp h1]; simp
      · rw [← Finset.mem_singleton.mp h1]; simp
    · simp
  · simp [self_mem_reachSet]

theorem two_cycle_reach_x {m : Metadata} {x y : Nat}
    (hxy : (x, y) ∈ graphEdges m) (hyx : (y, x) ∈ graphEdges m)
    (honly : ∀ e ∈ graphEdges m, e = (x, y) ∨ e = (y, x))
    {f : Nat} (hf : 1 ≤ f) :
    reachSet (graphEdges m) f x = {x, y} := by
  apply Finset.Subset.antisymm
  · apply reachSet_subset_of_closed
    · intro e he _
      rcases honly e he with rfl | rfl
      · simp
      · simp
    · simp
  · intro z hz
    rcases Finset.mem_insert.mp hz with rfl | hz
    · exact self_mem_reachSet
    · rw [Finset.mem_singleton.mp hz]
      apply reachSet_le_mono hf
      rw [show (1 : Nat) = 0 + 1 from rfl, reachSet_succ, reachSet_zero]
      exact mem_stepSet.mpr (Or.inr ⟨(x, y), hxy, by simp, rfl⟩)

theorem two_cycle_detect (m : Metadata) (x y : Nat)
    (hy : y < (graphNodes m).length) (hxy : x < y)
    (hxyE : (x, y) ∈ graphEdges m) (hyxE : (y, x) ∈ graphEdges m)
    (honly : ∀ e ∈ graphEdges m, e = (x, y) ∨ e = (y, x)) :
    detect_cycles m = [[nodeF m x, nodeF m y]] := by
  have hx : x < (graphNodes m).length := Nat.lt_trans hxy hy
  have hn1 : 1 ≤ (graphNodes m).length := Nat.lt_of_le_of_lt (Nat.zero_le y) hy
  have hne : x ≠ y := Nat.ne_of_lt hxy
  have hRSx : reachSet (graphEdges m) (graphNodes m).length x = {x, y} :=
    two_cycle_reach_x hxyE hyxE honly hn1
  have hRSy : reachSet (graphEdges m) (graphNodes m).length y = {y, x} := by
    apply two_cycle_reach_x hyxE hxyE _ hn1
    intro e he
    rcases honly e he with h | h
    · exact Or.inr h
    · exact Or.inl h
  -- membership in the saturated reach sets
  have hmemRS : ∀ z, z < (graphNodes m).length →
      ∀ j, (j ∈ reachSet (graphEdges m) (graphNodes m).length z ↔
        (z = x ∧ (j = x ∨ j = y)) ∨ (z = y ∧ (j = x ∨ j = y)) ∨
        (z ≠ x ∧ z ≠ y ∧ j = z)) := by
    intro z _ j
    by_cases hzx : z = x
    · subst hzx
      rw [hRSx]
      simp [hne]
    · by_cases hzy : z = y
      · subst hzy
        rw [hRSy]
        simp [hzx]
        tauto
      · rw [two_cycle_reach_other honly (by simp [hzx, hzy])]
        simp [hzx, hzy]
  -- the SCC of x (and of y) is [x, y]; every other SCC is a singleton
  have hsccx : sccOf (graphNodes m).length (graphEdges m) x = [x, y] := by
    unfold sccOf
    apply filter_range_pair _ x y hxy hy
    intro j hj
    simp only [Bool.and_eq_true, decide_eq_true_eq]
    rw [hmemRS x hx j, hmemRS j hj x]
    constructor
    · rintro ⟨h1, _⟩
      rcases h1 with ⟨_, h⟩ | ⟨hxeq, h⟩ | ⟨hne1, _, hjx⟩
      · exact h
      · exact absurd hxeq hne
      · exact Or.inl hjx
    · rintro (rfl | rfl)
      · exact ⟨Or.inl ⟨rfl, Or.inl rfl⟩, Or.inl ⟨rfl, Or.inl rfl⟩⟩
      · exact ⟨Or.inl ⟨rfl, Or.inr rfl⟩, Or.inr (Or.inl ⟨rfl, Or.inl rfl⟩)⟩
  have hsccy : sccOf (graphNodes m).length (graphEdges m) y = [x, y] := by
    unfold sccOf
    apply filter_range_pair _ x y hxy hy
    intro j hj
    simp only [Bool.and_eq_true, decide_eq_true_eq]
    rw [hmemRS y hy j, hmemRS j hj y]
    constructor
    · rintro ⟨h1, _⟩
      rcases h1 with ⟨hyx', _⟩ | ⟨_, h⟩ | ⟨_, hne2, hjy⟩
      · exact absurd hyx' hne.symm
      · exact h
      · exact absurd rfl hne2
    · rintro (rfl | rfl)
      · exact ⟨Or.inr (Or.inl ⟨rfl, Or.inl rfl⟩), Or.inl ⟨rfl, Or.inr rfl⟩⟩
      · exact ⟨Or.inr (Or.inl ⟨rfl, Or.inr rfl⟩), Or.inr (Or.inl ⟨rfl, Or.inr rfl⟩)⟩
  have hsccz : ∀ z, z < (graphNodes m).length → z ≠ x → z ≠ y →
      sccOf (graphNodes m).length (graphEdges m) z = [z] := by
    intro z hz hzx hzy
    unfold sccOf
    apply filter_range_singleton _ z hz
    intro j hj
    simp only [Bool.and_eq_true, decide_eq_true_eq]
    rw [hmemRS z hz j, hmemRS j hj z]
    constructor
    · rintro ⟨h1, _⟩
      rcases h1 with ⟨hzx', _⟩ | ⟨hzy', _⟩ | ⟨_, _, hjz⟩
      · exact absurd hzx' hzx
      · exact absurd hzy' hzy
      · exact hjz
    · rintro rfl
      exact ⟨Or.inr (Or.inr ⟨hzx, hzy, rfl⟩), Or.inr (Or.inr ⟨hzx, hzy, rfl⟩)⟩
  have hscc : sccCycles m = [[nodeF m x, nodeF m y]] := by
    unfold sccCycles tarjan_scc
    rw [List.filter_map, List.filter_filter]
    have hsel : (List.range (graphNodes m).length).filter
        (fun a => ((fun scc => decide (1 < scc.length)) ∘
            sccOf (graphNodes m).length (graphEdges m)) a &&
          decide ((sccOf (graphNodes m).length (graphEdges m) a).head? = some a)) = [x] := by
      apply filter_range_singleton _ x hx
      intro j hj
      simp only [Function.comp_apply, Bool.and_eq_true, decide_eq_true_eq]
      constructor
      · rintro ⟨hlen, hhead⟩
        by_cases hjx : j = x
        · exact hjx
        · by_cases hjy : j = y
          · subst hjy
            rw [hsccy] at hhead
            exact absurd (by simpa using hhead) hne
          · rw [hsccz j hj hjx hjy] at hlen
            simp at hlen
      · rintro rfl
        rw [hsccx]
        exact ⟨by simp, rfl⟩
    rw [hsel]
    simp [hsccx]
  have hself : selfLoopCycles m = [] := by
    rw [List.eq_nil_iff_forall_not_mem]
    intro c hc
    obtain ⟨p, _, _, i, _, hedge⟩ := mem_selfLoopCycles.mp hc
    rcases honly _ hedge with h | h
    · have : i = x ∧ i = y := by simpa using h
      omega
    · have : i = y ∧ i = x := by simpa using h
      omega
  unfold detect_cycles
  rw [hscc, hself]
  rfl

/-- C6: if the dependency graph's only edges are `A → B` and `B → A` for
two distinct workspace nodes, the detector returns exactly one cycle, and
its member set is exactly `{A, B}`. -/
theorem C6_pair_cycle (m : Metadata) (ia ib : Nat)
    (hia : ia < (graphNodes m).length) (hib : ib < (graphNodes m).length)
    (hne : ia ≠ ib)
    (hab : (ia, ib) ∈ graphEdges m) (hba : (ib, ia) ∈ graphEdges m)
    (honly : ∀ e ∈ graphEdges m, e = (ia, ib) ∨ e = (ib, ia)) :
    ∃ c, detect_cycles m = [c] ∧ c.toFinset = {nodeF m ia, nodeF m ib} := by
  rcases Nat.lt_or_ge ia ib with h | h
  · refine ⟨[nodeF m ia, nodeF m ib], two_cycle_detect m ia ib hib h hab hba honly, ?_⟩
    simp
  · have h' : ib < ia := Nat.lt_of_le_of_ne h (Ne.symm hne)
    refine ⟨[nodeF m ib, nodeF m ia],
      two_cycle_detect m ib ia hia h' hba hab (fun e he => (honly e he).symm), ?_⟩
    simp [Finset.pair_comm]

theorem C6_witness :
    (0, 1) ∈ graphEdges mPair ∧ (1, 0) ∈ graphEdges mPair ∧
    ∃ c, detect_cycles mPair = [c] ∧
      c.toFinset = {nodeF mPair 0, nodeF mPair 1} :=
  ⟨by decide, by decide,
    C6_pair_cycle mPair 0 1 (by decide) (by decide) (by decide) (by decide)
      (by decide) (by decide)⟩

/-! ### Unique identifiers and unique display names -/

theorem graphNodes_nodup {m : Metadata}
    (h : (m.packages.map Package.id).Nodup) : (graphNodes m).Nodup := by
  unfold graphNodes workspace_packages
  exact h.sublist ((List.filter_sublist _).map _)

theorem nodeMapGet_eq_some_iff {m : Metadata} (hnd : (graphNodes m).Nodup)
    {k : String} {i : Nat} :
    nodeMapGet m k = some i ↔ i < (graphNodes m).length ∧ nodeF m i = k := by
  constructor
  · intro h
    exact ⟨nodeMapGet_lt h, nodeF_of_nodeMapGet h⟩
  · rintro ⟨hi, hk⟩
    apply lookupIdx_of_nodup hnd hi
    rw [List.get_eq_getElem]
    unfold nodeF at hk
    rw [List.getD_eq_getElem _ _ hi] at hk
    exact hk

theorem nodeF_eq_getElem {m : Metadata} {i : Nat} (hi : i < (graphNodes m).length) :
    nodeF m i = (graphNodes m)[i] := by
  unfold nodeF
  exact List.getD_eq_getElem _ _ hi

theorem nodeF_injOn {m : Metadata} (hnd : (graphNodes m).Nodup) :
    ∀ i < (graphNodes m).length, ∀ j < (graphNodes m).length,
      nodeF m i = nodeF m j → i = j := by
  intro i hi j hj h
  rw [nodeF_eq_getElem hi, nodeF_eq_getElem hj] at h
  exact (hnd.getElem_inj_iff).mp h

theorem resolveDep_eq_some_iff {m : Metadata}
    (hnames : (m.packages.map Package.name).Nodup) {nm : String} {q : Package} :
    resolveDep m nm = some q ↔ q ∈ m.packages ∧ q.name = nm := by
  constructor
  · intro h
    exact ⟨List.mem_of_find?_eq_some h, by simpa using List.find?_some h⟩
  · rintro ⟨hq, hname⟩
    unfold resolveDep
    cases hf : m.packages.find? (fun p => p.name = nm) with
    | none =>
      exfalso
      have := List.find?_eq_none.mp hf q hq
      simp [hname] at this
    | some r =>
      have hr : r ∈ m.packages := List.mem_of_find?_eq_some hf
      have hrname : r.name = nm := by simpa using List.find?_some hf
      have : r = q :=
        List.inj_on_of_nodup_map hnames hr hq (by rw [hrname, hname])
      rw [this]

/-! ### Permutation transfer -/

theorem workspace_packages_perm {m1 m2 : Metadata}
    (hperm : m1.packages.Perm m2.packages)
    (hmem : m1.workspace_members = m2.workspace_members) :
    (workspace_packages m1).Perm (workspace_packages m2) := by
  unfold workspace_packages
  rw [hmem]
  exact hperm.filter _

theorem graphNodes_perm {m1 m2 : Metadata}
    (hperm : m1.packages.Perm m2.packages)
    (hmem : m1.workspace_members = m2.workspace_members) :
    (graphNodes m1).Perm (graphNodes m2) :=
  (workspace_packages_perm hperm hmem).map _

theorem semEdge_iff_of_perm {m1 m2 : Metadata}
    (hperm : m1.packages.Perm m2.packages)
    (hmem : m1.workspace_members = m2.workspace_members)
    (a b : String) : semEdge m1 a b ↔ semEdge m2 a b := by
  unfold semEdge
  constructor
  · rintro ⟨p, hp, ha, d, hd, q, hq, hname, hb, hbmem⟩
    exact ⟨p, (workspace_packages_perm hperm hmem).mem_iff.mp hp, ha, d, hd,
      q, hperm.mem_iff.mp hq, hname, hb,
      (graphNodes_perm hperm hmem).mem_iff.mp hbmem⟩
  · rintro ⟨p, hp, ha, d, hd, q, hq, hname, hb, hbmem⟩
    exact ⟨p, (workspace_packages_perm hperm hmem).mem_iff.mpr hp, ha, d, hd,
      q, hperm.mem_iff.mpr hq, hname, hb,
      (graphNodes_perm hperm hmem).mem_iff.mpr hbmem⟩

/-! ### Transport of the edge list to package ids -/

theorem mem_idEdgesList_iff {m : Metadata}
    (_hids : (graphNodes m).Nodup)
    (hnames : (m.packages.map Package.name).Nodup)
    {a b : String} :
    (a, b) ∈ idEdgesList m ↔ semEdge m a b := by
  unfold idEdgesList
  rw [List.mem_map]
  constructor
  · rintro ⟨⟨i, j⟩, hmemE, heq⟩
    obtain ⟨ha, hb⟩ : nodeF m i = a ∧ nodeF m j = b :=
      ⟨congrArg Prod.fst heq, congrArg Prod.snd heq⟩
    obtain ⟨p, hp, hfrom, d, hd, q, hq, ht⟩ := mem_graphEdges.mp hmemE
    obtain ⟨hqmem, hqname⟩ := resolveDep_eq_some_iff hnames |>.mp hq
    refine ⟨p, hp, ?_, d, hd, q, hqmem, hqname, ?_, ?_⟩
    · rw [← ha, nodeF_of_nodeMapGet hfrom]
    · rw [← hb, nodeF_of_nodeMapGet ht]
    · rw [← hb, nodeF_of_nodeMapGet ht]
      exact nodeMapGet_isSome_iff.mp (by simp [ht])
  · rintro ⟨p, hp, ha, d, hd, q, hqmem, hqname, hb, hbmem⟩
    have hpid : p.id ∈ graphNodes m := List.mem_map.mpr ⟨p, hp, rfl⟩
    obtain ⟨i, hi⟩ := Option.isSome_iff_exists.mp (nodeMapGet_isSome_iff.mpr hpid)
    obtain ⟨j, hj⟩ := Option.isSome_iff_exists.mp
      (nodeMapGet_isSome_iff.mpr (hb ▸ hbmem))
    refine ⟨(i, j), ?_, ?_⟩
    · exact mem_graphEdges.mpr
        ⟨p, hp, hi, d, hd, q, (resolveDep_eq_some_iff hnames).mpr ⟨hqmem, hqname⟩, hj⟩
    · have h1 : nodeF m i = a := by rw [nodeF_of_nodeMapGet hi, ha]
      have h2 : nodeF m j = b := by rw [nodeF_of_nodeMapGet hj, hb]
      simp [h1, h2]

/-! ### Mutual reachability classes are well defined at full fuel -/

theorem sccOf_congr {n : Nat} {edges : List (Nat × Nat)}
    (hE : ∀ e ∈ edges, e.2 < n) {i j : Nat} (hi : i < n) (hj : j < n)
    (hij : i ∈ reachSet edges n j) (hji : j ∈ reachSet edges n i) :
    sccOf n edges i = sccOf n edges j := by
  have hU : ∀ e ∈ edges, e.2 ∈ Finset.range n :=
    fun e he => Finset.mem_range.mpr (hE e he)
  have hcard : (Finset.range n).card ≤ n := le_of_eq (Finset.card_range n)
  have h1 : reachSet edges n i ⊆ reachSet edges n j :=
    reachSet_trans_subset hU (Finset.mem_range.mpr hj) hcard hij
  have h2 : reachSet edges n j ⊆ reachSet edges n i :=
    reachSet_trans_subset hU (Finset.mem_range.mpr hi) hcard hji
  have hRS : reachSet edges n i = reachSet edges n j :=
    Finset.Subset.antisymm h1 h2
  unfold sccOf
  apply List.filter_congr
  intro k hk
  have hk' : k < n := List.mem_range.mp hk
  have hfwd : i ∈ reachSet edges n k ↔ j ∈ reachSet edges n k := by
    constructor
    · intro h
      exact reachSet_trans_subset hU (Finset.mem_range.mpr hk') hcard h hji
    · intro h
      exact reachSet_trans_subset hU (Finset.mem_range.mpr hk') hcard h hij
  rw [hRS, decide_eq_decide.mpr hfwd]

theorem exists_rep_sccOf {n : Nat} {edges : List (Nat × Nat)}
    (hE : ∀ e ∈ edges, e.2 < n) {j : Nat} (hj : j < n) :
    ∃ i, i < n ∧ (sccOf n edges i).head? = some i ∧
      sccOf n edges i = sccOf n edges j := by
  have hne : sccOf n edges j ≠ [] := List.ne_nil_of_mem (mem_sccOf_self hj)
  obtain ⟨i, rest, hcons⟩ := List.exists_cons_of_ne_nil hne
  have hi_mem : i ∈ sccOf n edges j := by rw [hcons]; exact List.mem_cons_self _ _
  obtain ⟨hi_lt, hiRS, hjRS⟩ := mem_sccOf.mp hi_mem
  have heq : sccOf n edges i = sccOf n edges j := sccOf_congr hE hi_lt hj hiRS hjRS
  exact ⟨i, hi_lt, by rw [heq, hcons]; rfl, heq⟩

/-! ### SCC classes transported to package ids -/

theorem mem_idReachSet_iff {m : Metadata} (hids : (graphNodes m).Nodup)
    {i j : Nat} (hi : i < (graphNodes m).length) (hj : j < (graphNodes m).length) :
    nodeF m j ∈ idReachSet m (nodeF m i) ↔
      j ∈ reachSet (graphEdges m) (graphNodes m).length i := by
  unfold idReachSet idEdgesList
  apply mem_reachSet_image_iff (nodeF m) (graphEdges m)
    (Finset.range (graphNodes m).length)
  · intro e he
    have := graphEdges_lt he
    simp [Finset.mem_range, this.1, this.2]
  · intro x hx y hy hxy
    exact nodeF_injOn hids x (Finset.mem_range.mp hx) y (Finset.mem_range.mp hy) hxy
  · exact Finset.mem_range.mpr hi
  · exact Finset.mem_range.mpr hj

theorem sccOf_map_toFinset {m : Metadata} (hids : (graphNodes m).Nodup)
    {j : Nat} (hj : j < (graphNodes m).length) :
    ((sccOf (graphNodes m).length (graphEdges m) j).map (nodeF m)).toFinset
      = semClass m (nodeF m j) := by
  ext b
  rw [List.mem_toFinset, List.mem_map]
  unfold semClass
  rw [Finset.mem_filter, List.mem_toFinset]
  constructor
  · rintro ⟨k, hk, rfl⟩
    obtain ⟨hk_lt, hkRS, hjRS⟩ := mem_sccOf.mp hk
    refine ⟨nodeF_mem hk_lt, ?_, ?_⟩
    · exact (mem_idReachSet_iff hids hj hk_lt).mpr hkRS
    · exact (mem_idReachSet_iff hids hk_lt hj).mpr hjRS
  · rintro ⟨hbmem, hb1, hb2⟩
    obtain ⟨k, hk_lt, rfl⟩ := List.mem_iff_getElem.mp hbmem
    have hbF : nodeF m k = (graphNodes m)[k] := nodeF_eq_getElem hk_lt
    refine ⟨k, mem_sccOf.mpr ⟨hk_lt, ?_, ?_⟩, hbF⟩
    · exact (mem_idReachSet_iff hids hj hk_lt).mp (by rw [hbF]; exact hb1)
    · exact (mem_idReachSet_iff hids hk_lt hj).mp (by rw [hbF]; exact hb2)

theorem sccCycles_toFinset_iff {m : Metadata} (hids : (graphNodes m).Nodup)
    {F : Finset String} :
    (∃ c ∈ sccCycles m, c.toFinset = F) ↔
      ∃ a ∈ graphNodes m, F = semClass m a ∧ 1 < F.card := by
  have hE : ∀ e ∈ graphEdges m, e.2 < (graphNodes m).length :=
    fun e he => (graphEdges_lt he).2
  constructor
  · rintro ⟨c, hc, rfl⟩
    obtain ⟨scc, hmem, hlen, rfl⟩ := mem_sccCycles.mp hc
    obtain ⟨i, hi, hhead, rfl⟩ := mem_tarjan_scc.mp hmem
    have hnodup : ((sccOf (graphNodes m).length (graphEdges m) i).map (nodeF m)).Nodup := by
      apply List.Nodup.map_on _ sccOf_nodup
      intro x hx y hy hxy
      exact nodeF_injOn hids x (sccOf_subset_range hx) y (sccOf_subset_range hy) hxy
    refine ⟨nodeF m i, nodeF_mem hi, sccOf_map_toFinset hids hi, ?_⟩
    rw [List.toFinset_card_of_nodup hnodup, List.length_map]
    exact hlen
  · rintro ⟨a, hamem, hF, hcard⟩
    obtain ⟨j, hj_lt, rfl⟩ := List.mem_iff_getElem.mp hamem
    obtain ⟨i, hi_lt, hhead, heq⟩ := exists_rep_sccOf hE hj_lt
    have haF : nodeF m j = (graphNodes m)[j] := nodeF_eq_getElem hj_lt
    have hFc : ((sccOf (graphNodes m).length (graphEdges m) i).map (nodeF m)).toFinset = F := by
      rw [heq, sccOf_map_toFinset hids hj_lt, haF, ← hF]
    have hnodup : ((sccOf (graphNodes m).length (graphEdges m) i).map (nodeF m)).Nodup := by
      apply List.Nodup.map_on _ sccOf_nodup
      intro x hx y hy hxy
      exact nodeF_injOn hids x (sccOf_subset_range hx) y (sccOf_subset_range hy) hxy
    have hlen : 1 < (sccOf (graphNodes m).length (graphEdges m) i).length := by
      have := List.toFinset_card_of_nodup hnodup
      rw [hFc, List.length_map] at this
      omega
    exact ⟨(sccOf (graphNodes m).length (graphEdges m) i).map (nodeF m),
      mem_sccCycles.mpr
        ⟨sccOf (graphNodes m).length (graphEdges m) i,
         mem_tarjan_scc.mpr ⟨i, hi_lt, hhead, rfl⟩, hlen, rfl⟩, hFc⟩

theorem selfLoopCycles_toFinset_iff {m : Metadata}
    (hids : (graphNodes m).Nodup)
    (hnames : (m.packages.map Package.name).Nodup)
    {F : Finset String} :
    (∃ c ∈ selfLoopCycles m, c.toFinset = F) ↔
      ∃ a, F = {a} ∧ a ∈ graphNodes m ∧ semEdge m a a := by
  constructor
  · rintro ⟨c, hc, rfl⟩
    obtain ⟨p, hp, rfl, i, hi, hedge⟩ := mem_selfLoopCycles.mp hc
    refine ⟨p.id, by simp, List.mem_map.mpr ⟨p, hp, rfl⟩, ?_⟩
    apply (mem_idEdgesList_iff hids hnames).mp
    unfold idEdgesList
    apply List.mem_map.mpr
    refine ⟨(i, i), hedge, ?_⟩
    simp [nodeF_of_nodeMapGet hi]
  · rintro ⟨a, rfl, hamem, hsem⟩
    obtain ⟨p, hp, rfl⟩ := List.mem_map.mp hamem
    have hedge' : (p.id, p.id) ∈ idEdgesList m :=
      (mem_idEdgesList_iff hids hnames).mpr hsem
    unfold idEdgesList at hedge'
    obtain ⟨⟨i, j⟩, hij, heq⟩ := List.mem_map.mp hedge'
    have hi_lt := (graphEdges_lt hij).1
    have hj_lt := (graphEdges_lt hij).2
    have hfi : nodeF m i = p.id := congrArg Prod.fst heq
    have hfj : nodeF m j = p.id := congrArg Prod.snd heq
    have hji : j = i := nodeF_injOn hids j hj_lt i hi_lt (by rw [hfi, hfj])
    subst hji
    exact ⟨[p.id], mem_selfLoopCycles.mpr
      ⟨p, hp, rfl, j, (nodeMapGet_eq_some_iff hids).mpr ⟨hj_lt, hfi⟩, hij⟩, by simp⟩

theorem mem_cycleFinsets {m : Metadata} {F : Finset String} :
    F ∈ cycleFinsets m ↔
      (∃ c ∈ sccCycles m, c.toFinset = F) ∨
      (∃ c ∈ selfLoopCycles m, c.toFinset = F) := by
  unfold cycleFinsets detect_cycles
  rw [List.mem_toFinset, List.map_append, List.mem_append]
  simp [List.mem_map]

/-! ### Invariance of the semantic description under permutation -/

theorem idEdgesList_mem_iff_of_perm {m1 m2 : Metadata}
    (hperm : m1.packages.Perm m2.packages)
    (hmem : m1.workspace_members = m2.workspace_members)
    (hids : (m1.packages.map Package.id).Nodup)
    (hnames : (m1.packages.map Package.name).Nodup)
    (e : String × String) : e ∈ idEdgesList m1 ↔ e ∈ idEdgesList m2 := by
  have hids2 : (m2.packages.map Package.id).Nodup :=
    ((hperm.map Package.id).nodup_iff).mp hids
  have hnames2 : (m2.packages.map Package.name).Nodup :=
    ((hperm.map Package.name).nodup_iff).mp hnames
  obtain ⟨x, y⟩ := e
  rw [mem_idEdgesList_iff (graphNodes_nodup hids) hnames,
    mem_idEdgesList_iff (graphNodes_nodup hids2) hnames2]
  exact semEdge_iff_of_perm hperm hmem x y

theorem idReachSet_eq_of_perm {m1 m2 : Metadata}
    (hperm : m1.packages.Perm m2.packages)
    (hmem : m1.workspace_members = m2.workspace_members)
    (hids : (m1.packages.map Package.id).Nodup)
    (hnames : (m1.packages.map Package.name).Nodup)
    (a : String) : idReachSet m1 a = idReachSet m2 a := by
  unfold idReachSet
  rw [show (graphNodes m1).length = (graphNodes m2).length from
    (graphNodes_perm hperm hmem).length_eq]
  exact reachSet_congr (idEdgesList_mem_iff_of_perm hperm hmem hids hnames) _ a

theorem semClass_eq_of_perm {m1 m2 : Metadata}
    (hperm : m1.packages.Perm m2.packages)
    (hmem : m1.workspace_members = m2.workspace_members)
    (hids : (m1.packages.map Package.id).Nodup)
    (hnames : (m1.packages.map Package.name).Nodup)
    (a : String) : semClass m1 a = semClass m2 a := by
  unfold semClass
  ext b
  simp only [Finset.mem_filter, List.mem_toFinset]
  rw [(graphNodes_perm hperm hmem).mem_iff,
    idReachSet_eq_of_perm hperm hmem hids hnames a,
    idReachSet_eq_of_perm hperm hmem hids hnames b]

/-! ### Claim C7 -/

/-- C7 counterexample: two metadata values whose package lists are
permutations of each other (workspace members identical) on which
`detect_cycles` yields different cycle sets — two universe packages share
the display name `x`, so the find-first dependency resolution binds to a
different package after the transposition. -/
theorem C7_counterexample :
    mPerm1.packages.Perm mPerm2.packages ∧
    mPerm1.workspace_members = mPerm2.workspace_members ∧
    cycleFinsets mPerm1 ≠ cycleFinsets mPerm2 := by
  refine ⟨?_, rfl, ?_⟩
  · decide
  · decide

/-- C7 (amended): cycle detection is order-independent provided package
identifiers and display names are each pairwise distinct across the full
package universe: for two inputs differing only by a permutation of the
package list, the set of detected cycles (cycles compared by member set)
is the same.  Without distinct display names the property fails. -/
theorem C7_order_independence_under_unique_names (m1 m2 : Metadata)
    (hperm : m1.packages.Perm m2.packages)
    (hmem : m1.workspace_members = m2.workspace_members)
    (hids : (m1.packages.map Package.id).Nodup)
    (hnames : (m1.packages.map Package.name).Nodup) :
    cycleFinsets m1 = cycleFinsets m2 := by
  have hids2 : (m2.packages.map Package.id).Nodup :=
    ((hperm.map Package.id).nodup_iff).mp hids
  have hnames2 : (m2.packages.map Package.name).Nodup :=
    ((hperm.map Package.name).nodup_iff).mp hnames
  have hgn1 : (graphNodes m1).Nodup := graphNodes_nodup hids
  have hgn2 : (graphNodes m2).Nodup := graphNodes_nodup hids2
  ext F
  rw [mem_cycleFinsets, mem_cycleFinsets,
    sccCycles_toFinset_iff hgn1, sccCycles_toFinset_iff hgn2,
    selfLoopCycles_toFinset_iff hgn1 hnames, selfLoopCycles_toFinset_iff hgn2 hnames2]
  constructor
  · rintro (⟨a, hamem, hF, hc⟩ | ⟨a, hF, hamem, hsem⟩)
    · refine Or.inl ⟨a, (graphNodes_perm hperm hmem).mem_iff.mp hamem, ?_, hc⟩
      rw [hF, semClass_eq_of_perm hperm hmem hids hnames a]
    · exact Or.inr ⟨a, hF, (graphNodes_perm hperm hmem).mem_iff.mp hamem,
        (semEdge_iff_of_perm hperm hmem a a).mp hsem⟩
  · rintro (⟨a, hamem, hF, hc⟩ | ⟨a, hF, hamem, hsem⟩)
    · refine Or.inl ⟨a, (graphNodes_perm hperm hmem).mem_iff.mpr hamem, ?_, hc⟩
      rw [hF, semClass_eq_of_perm hperm hmem hids hnames a]
    · exact Or.inr ⟨a, hF, (graphNodes_perm hperm hmem).mem_iff.mpr hamem,
        (semEdge_iff_of_perm hperm hmem a a).mpr hsem⟩

theorem C7_amended_witness :
    mPair.packages.Perm mPairSwap.packages ∧
    (mPair.packages.map Package.id).Nodup ∧
    (mPair.packages.map Package.name).Nodup ∧
    cycleFinsets mPair = cycleFinsets mPairSwap :=
  ⟨by decide, by decide, by decide,
    C7_order_independence_under_unique_names mPair mPairSwap (by decide) rfl
      (by decide) (by decide)⟩
